import Mathlib

/-!
Verification of the filesystem path model (`FilePath`) and the bounded
directory-tree lister (`IO.ls`) of the node bootstrap script `app/run.js`
of jsdoc-toolkit. The JavaScript is embedded shallowly: strings stay
strings, arrays become lists, in-place mutation becomes explicit state
passing, and calls into `fs` that may throw are modelled with `Except`.
-/

set_option autoImplicit false

namespace JsdocRun

/-! ### Path splitting, as `absPath.split(/[\\\/]/)` -/

/-- Character class of the split regex used by the `FilePath` constructor:
forward or back slash. -/
def isSlash (c : Char) : Bool := c == '/' || c == '\\'

/-- Split a character list at every character satisfying `p`, exactly as the
JS `String.prototype.split` with a single-character class: separators are
dropped, adjacent separators produce empty groups, and the result always has
at least one (possibly empty) group. -/
def splitChars (p : Char → Bool) : List Char → List (List Char)
  | [] => [[]]
  | c :: cs =>
    let r := splitChars p cs
    if p c then [] :: r
    else
      match r with
      | [] => [[c]]
      | g :: gs => (c :: g) :: gs

/-- Model of `absPath.split(/[\\\/]/)`. -/
def splitOnSlashes (s : String) : List String :=
  (splitChars isSlash s.data).map (fun g => String.mk g)

/-! ### The FilePath class -/

/-- State of a `FilePath` object: the fields assigned by the constructor in
`app/run.js` (`this.slash`, `this.root`, `this.path`, `this.file`). -/
structure FilePath where
  slash : String
  root : String
  path : List String
  file : String
deriving DecidableEq, Repr

/-- One iteration of the loop body of `FilePath.prototype.resolvePath`:
`..` pops the accepted list (a no-op when it is empty, as `Array.pop` on an
empty JS array), `.` is skipped, anything else is pushed. -/
def resolveStep (acc : List String) (s : String) : List String :=
  if s = ".." then acc.dropLast
  else if s = "." then acc
  else acc ++ [s]

/-- Model of `FilePath.prototype.resolvePath`: a single left-to-right pass
over the segment list starting from an empty accumulator. -/
def resolvePath (segs : List String) : List String :=
  segs.foldl resolveStep []

/-- Model of the `FilePath` constructor. `separator` is the optional second
argument; `separator || "/"` treats an absent or empty string as `/`.
The first split token (always present, as JS split never returns an empty
array) becomes `root` with the separator appended, the last remaining token
becomes `file`, the middle tokens become `path`, which is then resolved. -/
def construct (absPath : String) (separator : Option String) : FilePath :=
  let slash := match separator with
    | none => "/"
    | some s => if s = "" then "/" else s
  let parts := splitOnSlashes absPath
  let root := match parts.head? with
    | none => slash
    | some r => r ++ slash
  let rest := parts.tail
  let file := (rest.getLast?).getD ""
  { slash := slash, root := root, path := resolvePath rest.dropLast, file := file }

/-- Model of `FilePath.prototype.toDir`: clear `file` when it is truthy. -/
def FilePath.toDir (fp : FilePath) : FilePath :=
  if fp.file = "" then fp else { fp with file := "" }

/-- Model of `FilePath.prototype.upDir`: `toDir`, then pop the last segment
when the segment list is nonempty. -/
def FilePath.upDir (fp : FilePath) : FilePath :=
  let fp2 := fp.toDir
  if fp2.path = [] then fp2 else { fp2 with path := fp2.path.dropLast }

/-- Model of `FilePath.prototype.toString`. -/
def FilePath.toStr (fp : FilePath) : String :=
  fp.root ++ String.intercalate fp.slash fp.path
    ++ (if 0 < fp.path.length then fp.slash else "") ++ fp.file

/-- Model of the JS `String.prototype.toLowerCase`, character by
character. -/
def toLowerCase (s : String) : String := String.mk (s.data.map Char.toLower)

/-- Model of the static `FilePath.fileExtension`:
`filename.split(".").pop().toLowerCase()`. JS `split` with a string
separator never returns an empty array, so `pop` always yields the last
group. -/
def fileExtension (filename : String) : String :=
  toLowerCase (String.mk (((splitChars (fun c => c == '.') filename.data).getLast?).getD []))

/-! ### The directory lister IO.ls -/

/-- Entry in the modelled filesystem: a plain file, or a directory whose
listing (`fs.readdirSync`) either succeeds with the given entry names in
order or throws. -/
inductive FSNode where
  | file : FSNode
  | dir : Option (List String) → FSNode
deriving DecidableEq

/-- Filesystem oracle backing `fs.statSync` / `fs.readdirSync`: a stat
lookup by path string, `none` when the path does not exist (statSync
throws). -/
def FS : Type := String → Option FSNode

/-- Model of the hidden-entry regex `/^\.[^\.\/\\]/`: a dot followed by a
character that is not a dot, slash or backslash. -/
def isHidden (f : String) : Bool :=
  match f.data with
  | '.' :: c :: _ => !(c == '.' || c == '/' || c == '\\')
  | _ => false

/-- Replace the first occurrence of `pat` in a character list by `rep`, as
the JS `String.prototype.replace` with a string pattern. -/
def replaceFirstChars (pat rep : List Char) : List Char → List Char
  | [] => []
  | c :: cs =>
    if pat.isPrefixOf (c :: cs) then rep ++ (c :: cs).drop pat.length
    else c :: replaceFirstChars pat rep cs

/-- Model of `s.replace(pat, rep)` with string arguments (first occurrence
only). -/
def replaceFirst (s pat rep : String) : String :=
  String.mk (replaceFirstChars pat.data rep.data s.data)

/-- Model of `_path.join("/")` (JS `Array.prototype.join` with separator
`/`: empty array gives the empty string). -/
def joinSlash : List String → String
  | [] => ""
  | [x] => x
  | x :: xs => x ++ "/" ++ joinSlash xs

mutual

/-- Model of the body of `IO.ls` after the argument defaulting: `dir` is the
stat target, `acc` the shared `_allFiles` accumulator, `path` the `_path`
stack. Returns the JS return value of this activation paired with the final
state of the shared accumulator; a thrown filesystem error is
`Except.error`. -/
def lsAux (fs : FS) (recurse : Nat) (dir : String) (acc : List String) (path : List String) :
    Except Unit (List String × List String) :=
  if path.length = 0 then Except.ok (acc, acc)
  else
    match fs dir with
    | none => Except.error ()
    | some FSNode.file => Except.ok ([dir], acc)
    | some (FSNode.dir none) => Except.error ()
    | some (FSNode.dir (some files)) =>
      match lsLoop fs recurse path files acc with
      | Except.error e => Except.error e
      | Except.ok acc2 => Except.ok (acc2, acc2)
termination_by (recurse + 1 - path.length, 1, 0)
decreasing_by
  all_goals simp_wf
  all_goals first
    | (apply Prod.Lex.left; omega)
    | (apply Prod.Lex.right
       first
         | (apply Prod.Lex.left; omega)
         | (apply Prod.Lex.right; omega)
         | omega)
    | omega

/-- Model of the `for` loop over a directory's entries inside `IO.ls`,
threading the `_allFiles` accumulator through recursive calls; the JS return
value of a recursive `IO.ls` call is discarded, exactly as at the call site
in the source. -/
def lsLoop (fs : FS) (recurse : Nat) (path : List String) (files : List String) (acc : List String) :
    Except Unit (List String) :=
  match files with
  | [] => Except.ok acc
  | file :: rest =>
    if isHidden file then lsLoop fs recurse path rest acc
    else
      match fs (joinSlash path ++ "/" ++ file) with
      | none => Except.error ()
      | some FSNode.file =>
        lsLoop fs recurse path rest (acc ++ [replaceFirst (joinSlash path ++ "/" ++ file) "//" "/"])
      | some (FSNode.dir _) =>
        if h : (path ++ [file]).length - 1 < recurse then
          match lsAux fs recurse (joinSlash (path ++ [file])) acc (path ++ [file]) with
          | Except.error e => Except.error e
          | Except.ok (_, acc2) => lsLoop fs recurse path rest acc2
        else lsLoop fs recurse path rest acc
termination_by (recurse + 1 - path.length, 0, files.length)
decreasing_by
  all_goals simp_wf
  all_goals try simp only [List.length_append, List.length_cons, List.length_nil,
    Nat.add_sub_cancel] at *
  all_goals first
    | (apply Prod.Lex.left; omega)
    | (apply Prod.Lex.right
       first
         | (apply Prod.Lex.left; omega)
         | (apply Prod.Lex.right; omega)
         | omega)
    | omega

end

/-- Model of `IO.ls(dir, recurse)` as called from outside: `_path`
undefined, so `_allFiles = []` and `_path = [dir]`; an undefined `recurse`
defaults to 1. -/
def ls (fs : FS) (dir : String) (recurse : Option Nat) : Except Unit (List String) :=
  match lsAux fs (recurse.getD 1) dir [] [dir] with
  | Except.error e => Except.error e
  | Except.ok (ret, _) => Except.ok ret


/-! ### Example filesystems used in the claims -/

/-- The directory tree `root/{x.js, sub/{y.js, .hidden.js}}`. -/
def fs1 : FS := fun p =>
  if p = "root" then some (FSNode.dir (some ["x.js", "sub"]))
  else if p = "root/x.js" then some FSNode.file
  else if p = "root/sub" then some (FSNode.dir (some ["y.js", ".hidden.js"]))
  else if p = "root/sub/y.js" then some FSNode.file
  else if p = "root/sub/.hidden.js" then some FSNode.file
  else none

/-- A filesystem holding a single plain file. -/
def fsSingleFile : FS := fun p => if p = "f.txt" then some FSNode.file else none

/-- A filesystem where listing the nested directory `root/sub` fails. -/
def fsBroken : FS := fun p =>
  if p = "root" then some (FSNode.dir (some ["a.js", "sub"]))
  else if p = "root/a.js" then some FSNode.file
  else if p = "root/sub" then some (FSNode.dir none)
  else none

/-- The empty filesystem: every stat fails. -/
def fsEmpty : FS := fun _ => none

/-! ### Helper lemmas about path normalization -/

/-- The normalization invariant stated by the spec: the segment list holds
neither the literal marker `.` nor `..`. -/
def noMarkers (l : List String) : Prop := "." ∉ l ∧ ".." ∉ l

instance (l : List String) : Decidable (noMarkers l) := by
  unfold noMarkers; infer_instance

theorem noMarkers_dropLast (l : List String) (h : noMarkers l) : noMarkers l.dropLast :=
  ⟨fun hm => h.1 (List.Sublist.mem hm (List.dropLast_sublist l)),
   fun hm => h.2 (List.Sublist.mem hm (List.dropLast_sublist l))⟩

theorem noMarkers_resolveStep (acc : List String) (s : String) (h : noMarkers acc) :
    noMarkers (resolveStep acc s) := by
  unfold resolveStep
  split
  · exact noMarkers_dropLast acc h
  next hdd =>
    split
    next => exact h
    next hd =>
      constructor
      · intro hm
        rcases List.mem_append.mp hm with hx | hx
        · exact h.1 hx
        · rw [List.mem_singleton] at hx
          exact hd hx.symm
      · intro hm
        rcases List.mem_append.mp hm with hx | hx
        · exact h.2 hx
        · rw [List.mem_singleton] at hx
          exact hdd hx.symm

theorem noMarkers_foldl : ∀ (l acc : List String), noMarkers acc →
    noMarkers (List.foldl resolveStep acc l)
  | [], _, h => h
  | s :: rest, acc, h =>
    noMarkers_foldl rest (resolveStep acc s) (noMarkers_resolveStep acc s h)

theorem noMarkers_resolvePath (segs : List String) : noMarkers (resolvePath segs) :=
  noMarkers_foldl segs [] (by simp [noMarkers])

theorem noMarkers_construct (s : String) (sep : Option String) :
    noMarkers (construct s sep).path :=
  noMarkers_resolvePath _

theorem toDir_path (fp : FilePath) : fp.toDir.path = fp.path := by
  unfold FilePath.toDir
  split <;> rfl

theorem upDir_path (fp : FilePath) : fp.upDir.path = fp.path.dropLast := by
  simp only [FilePath.upDir]
  split
  next h =>
    rw [toDir_path] at h ⊢
    rw [h]
    rfl
  next h =>
    simp only [toDir_path]

/-! ### Claims about the path model -/

/-- C2: after construction the segment list contains neither `.` nor `..`;
a `..` hitting an empty accepted-segment list is a silent no-op; and the
invariant is preserved by toDir and upDir. -/
theorem c2_no_markers_invariant :
    (∀ (s : String) (sep : Option String), noMarkers (construct s sep).path) ∧
    resolveStep [] ".." = [] ∧
    (∀ fp : FilePath, noMarkers fp.path →
      noMarkers fp.toDir.path ∧ noMarkers fp.upDir.path) := by
  refine ⟨fun s sep => noMarkers_construct s sep, rfl, fun fp h => ⟨?_, ?_⟩⟩
  · rw [toDir_path]
    exact h
  · rw [upDir_path]
    exact noMarkers_dropLast _ h

theorem c2_no_markers_invariant_witness :
    noMarkers (FilePath.toDir ⟨"/", "/", ["a"], "f"⟩).path ∧
    noMarkers (FilePath.upDir ⟨"/", "/", ["a"], "f"⟩).path :=
  c2_no_markers_invariant.2.2 ⟨"/", "/", ["a"], "f"⟩ (by decide)

/-- C3: constructing from `/a/b/../c/file.txt` and from `/a/./b/file.txt`
with the default separator serializes to `/a/c/file.txt` and
`/a/b/file.txt` respectively. -/
theorem c3_construct_examples :
    (construct "/a/b/../c/file.txt" none).toStr = "/a/c/file.txt" ∧
    (construct "/a/./b/file.txt" none).toStr = "/a/b/file.txt" :=
  ⟨rfl, rfl⟩

/-- Serialization formula as worded by the spec: root, then the segments
joined by the separator, then a separator when there is at least one
segment, then the file name. -/
def specToString (fp : FilePath) : String :=
  fp.root ++ String.intercalate fp.slash fp.path
    ++ (if fp.path ≠ [] then fp.slash else "") ++ fp.file

/-- C4: on every FilePath state, toString produces exactly the spec's
serialization formula; it is a pure function of the four fields and does no
re-normalization. -/
theorem c4_toString_formula : ∀ fp : FilePath, fp.toStr = specToString fp := by
  intro fp
  unfold FilePath.toStr specToString
  by_cases h : fp.path = [] <;> simp [h, List.length_pos]

/-- C5: upDir equals toDir followed by dropping the last segment (a no-op
on an empty segment list), and applying it twice to `/a/b/c/file.txt`
serializes to `/a/`. -/
theorem c5_upDir_decomposition :
    (∀ fp : FilePath, fp.upDir = { fp.toDir with path := fp.toDir.path.dropLast }) ∧
    ((construct "/a/b/c/file.txt" none).upDir.upDir.toStr = "/a/") := by
  constructor
  · intro fp
    simp only [FilePath.upDir]
    split
    next h =>
      have hgen : ∀ x : FilePath, x.path = [] → x = { x with path := x.path.dropLast } := by
        intro x hx
        cases x
        simp_all
      exact hgen _ h
    next h => rfl
  · rfl

/-- C8: construction and the path operations are total: every non-empty
input string, however degenerate, yields a FilePath value whose segment
list is normalized, and toDir and upDir keep it normalized. -/
theorem c8_totality (s : String) (sep : Option String) (hne : s ≠ "") :
    ∃ fp : FilePath, construct s sep = fp ∧ noMarkers fp.path ∧
      noMarkers fp.toDir.path ∧ noMarkers fp.upDir.path := by
  refine ⟨construct s sep, rfl, noMarkers_construct s sep, ?_, ?_⟩
  · rw [toDir_path]
    exact noMarkers_construct s sep
  · rw [upDir_path]
    exact noMarkers_dropLast _ (noMarkers_construct s sep)

theorem c8_totality_witness :
    ∃ fp : FilePath, construct "x" none = fp ∧ noMarkers fp.path ∧
      noMarkers fp.toDir.path ∧ noMarkers fp.upDir.path :=
  c8_totality "x" none (by decide)

/-! ### Helper lemmas for fileExtension -/

theorem splitChars_ne_nil (p : Char → Bool) (l : List Char) : splitChars p l ≠ [] := by
  cases l with
  | nil => simp [splitChars]
  | cons c cs =>
    simp only [splitChars]
    split
    · simp
    · split <;> simp

theorem splitChars_all_not (p : Char → Bool) :
    ∀ l : List Char, (∀ c ∈ l, p c = false) → splitChars p l = [l]
  | [], _ => rfl
  | c :: cs, h => by
    have hc : p c = false := h c (by simp)
    have ih := splitChars_all_not p cs (fun x hx => h x (List.mem_cons_of_mem c hx))
    simp [splitChars, hc, ih]

theorem splitChars_singleton (p : Char → Bool) :
    ∀ (l g : List Char), splitChars p l = [g] → (∀ c ∈ l, p c = false) ∧ g = l
  | [], g, h => by
    have h' : ([[]] : List (List Char)) = [g] := h
    injection h' with h1 _
    exact ⟨by simp, h1.symm⟩
  | c :: cs, g, h => by
    by_cases hc : p c
    · exfalso
      simp only [splitChars, if_pos hc] at h
      injection h with _ h2
      exact splitChars_ne_nil p cs h2
    · have hc' : p c = false := by simpa using hc
      cases hr : splitChars p cs with
      | nil => exact absurd hr (splitChars_ne_nil p cs)
      | cons g1 gs =>
        simp only [splitChars, if_neg hc, hr] at h
        injection h with h1 h2
        rw [h2] at hr
        obtain ⟨hall, hg1⟩ := splitChars_singleton p cs g1 hr
        constructor
        · intro x hx
          rcases List.mem_cons.mp hx with hx | hx
          · rw [hx]
            exact hc'
          · exact hall x hx
        · rw [← h1, hg1]

theorem takeWhile_concat (q : Char → Bool) :
    ∀ (xs : List Char) (c : Char),
      (xs ++ [c]).takeWhile q =
        if xs.all q then xs ++ (if q c then [c] else []) else xs.takeWhile q
  | [], c => by
    by_cases hqc : q c <;> simp [List.takeWhile_cons, hqc]
  | x :: xs, c => by
    have ih := takeWhile_concat q xs c
    by_cases hx : q x
    · by_cases ha : xs.all q <;>
        simp [List.takeWhile_cons, hx, ih, List.all_cons, ha]
    · simp [List.takeWhile_cons, hx, List.all_cons]

theorem takeWhile_all (q : Char → Bool) :
    ∀ l : List Char, l.all q = true → l.takeWhile q = l
  | [], _ => rfl
  | x :: xs, h => by
    rw [List.all_cons, Bool.and_eq_true] at h
    simp [List.takeWhile_cons, h.1, takeWhile_all q xs h.2]

theorem splitChars_getLast? (p : Char → Bool) :
    ∀ l : List Char,
      (splitChars p l).getLast? = some ((l.reverse.takeWhile (fun c => !p c)).reverse)
  | [] => by simp [splitChars]
  | c :: cs => by
    have ih := splitChars_getLast? p cs
    by_cases hc : p c
    · cases hr : splitChars p cs with
      | nil => exact absurd hr (splitChars_ne_nil p cs)
      | cons g1 gs =>
        rw [hr] at ih
        simp only [splitChars, if_pos hc, hr]
        rw [List.getLast?_cons_cons, ih, List.reverse_cons, takeWhile_concat]
        have hq : (!p c) = false := by simp [hc]
        by_cases ha : cs.reverse.all (fun x => !p x) = true
        · rw [if_pos ha]
          simp [hq, takeWhile_all _ _ ha]
        · rw [if_neg ha]
    · have hc' : p c = false := by simpa using hc
      cases hr : splitChars p cs with
      | nil => exact absurd hr (splitChars_ne_nil p cs)
      | cons g1 gs =>
        simp only [splitChars, if_neg hc, hr]
        cases gs with
        | nil =>
          obtain ⟨hall, hg1⟩ := splitChars_singleton p cs g1 hr
          rw [hg1]
          have ha : cs.reverse.all (fun x => !p x) = true := by
            rw [List.all_eq_true]
            intro x hx
            rw [List.mem_reverse] at hx
            simp [hall x hx]
          have hq : (!p c) = true := by simp [hc']
          rw [List.reverse_cons, takeWhile_concat, if_pos ha]
          simp [hq]
        | cons g2 gs2 =>
          have hnotall : ¬ (cs.reverse.all (fun x => !p x) = true) := by
            intro hab
            have hall : ∀ x ∈ cs, p x = false := by
              intro x hx
              have hx' := List.all_eq_true.mp hab x (List.mem_reverse.mpr hx)
              simpa using hx'
            have hsing := splitChars_all_not p cs hall
            rw [hr] at hsing
            injection hsing with _ h2
            cases h2
          rw [hr] at ih
          rw [List.getLast?_cons_cons] at ih
          rw [List.getLast?_cons_cons, ih, List.reverse_cons, takeWhile_concat,
            if_neg hnotall]

/-- Spec wording of fileExtension: the substring after the last dot (the
whole string when no dot occurs), lower-cased. Stated from the spec for
comparison with the source definition. -/
def specFileExtension (filename : String) : String :=
  toLowerCase (String.mk ((filename.data.reverse.takeWhile (fun c => !(c == '.'))).reverse))

/-- C9: fileExtension returns the lower-cased substring after the last dot,
and the whole lower-cased name when no dot is present; in particular `gz`
for `archive.tar.gz` and `readme` for `README`. -/
theorem c9_fileExtension_spec :
    (∀ fn : String, fileExtension fn = specFileExtension fn) ∧
    fileExtension "archive.tar.gz" = "gz" ∧ fileExtension "README" = "readme" := by
  refine ⟨fun fn => ?_, rfl, rfl⟩
  unfold fileExtension specFileExtension
  rw [splitChars_getLast? (fun c => c == '.') fn.data]
  rfl

/-! ### Claims about the directory lister -/

theorem ls_fs1_eval (d : Option Nat) :
    ls fs1 "root" d =
      Except.ok (if d.getD 1 ≤ 1 then ["root/x.js"]
        else ["root/x.js", "root/sub/y.js"]) := by
  match d with
  | none =>
    simp [ls, lsAux, lsLoop, fs1, joinSlash, isHidden, replaceFirst, replaceFirstChars]
  | some 0 =>
    simp [ls, lsAux, lsLoop, fs1, joinSlash, isHidden, replaceFirst, replaceFirstChars]
  | some 1 =>
    simp [ls, lsAux, lsLoop, fs1, joinSlash, isHidden, replaceFirst, replaceFirstChars]
  | some (k + 2) =>
    have h1 : 1 < k + 2 := by omega
    have h2 : ¬ (k + 2 ≤ 1) := by omega
    simp [ls, lsAux, lsLoop, fs1, joinSlash, isHidden, replaceFirst, replaceFirstChars,
      h1, h2]

/-- C1: on the tree `root/{x.js, sub/{y.js, .hidden.js}}`, ls at depth 1
yields exactly `root/x.js` (the directory `sub` beyond the bound is omitted
entirely), at depth 2 exactly `root/x.js` and `root/sub/y.js`, and the
hidden entry is never listed at any depth. -/
theorem c1_depth_bound_and_hidden :
    ls fs1 "root" (some 1) = Except.ok ["root/x.js"] ∧
    ls fs1 "root" (some 2) = Except.ok ["root/x.js", "root/sub/y.js"] ∧
    (∀ (d : Option Nat) (out : List String), ls fs1 "root" d = Except.ok out →
      "root/sub/.hidden.js" ∉ out) := by
  refine ⟨by rw [ls_fs1_eval]; rfl, by rw [ls_fs1_eval]; rfl, fun d out h => ?_⟩
  rw [ls_fs1_eval d] at h
  injection h with h
  by_cases hd : d.getD 1 ≤ 1
  · rw [if_pos hd] at h
    rw [← h]
    decide
  · rw [if_neg hd] at h
    rw [← h]
    decide

theorem c1_depth_bound_and_hidden_witness :
    "root/sub/.hidden.js" ∉ ["root/x.js"] :=
  c1_depth_bound_and_hidden.2.2 (some 1) ["root/x.js"] c1_depth_bound_and_hidden.1

/-- C6: whenever the start path stats as a plain file, ls returns the
one-element list holding that path, for every depth argument including 0
and the undefined default. -/
theorem c6_file_start (fs : FS) (dir : String) (recurse : Option Nat)
    (h : fs dir = some FSNode.file) : ls fs dir recurse = Except.ok [dir] := by
  simp [ls, lsAux, h]

theorem c6_file_start_witness :
    ls fsSingleFile "f.txt" (some 0) = Except.ok ["f.txt"] :=
  c6_file_start fsSingleFile "f.txt" (some 0) rfl

/-- Well-formedness of the filesystem oracle, implicit in the spec's
IOFacade contract: every entry name listed by a readable directory denotes
an existing path, so a stat performed on a listed entry cannot fail. -/
def Consistent (fs : FS) : Prop :=
  ∀ (d : String) (es : List String) (e : String),
    fs d = some (FSNode.dir (some es)) → e ∈ es → fs (d ++ "/" ++ e) ≠ none

/-- Reachability of a directory read within the depth bound: starting from a
traversal activation that reads directory `d` with `ℓ` components on the
`_path` stack, the traversal goes on to read directory `D` with `ℓD`
components on the stack. Each step follows a non-hidden entry of a readable
directory when the entry stats as a directory, and is taken only while the
stack is below the `recurse` bound, mirroring the push guard of `IO.ls`. -/
inductive Reaches (fs : FS) (recurse : Nat) : String → Nat → String → Nat → Prop where
  | refl (d : String) (ℓ : Nat) : Reaches fs recurse d ℓ d ℓ
  | head {d D e : String} {ℓ ℓD : Nat} {es : List String} {x : Option (List String)} :
      fs d = some (FSNode.dir (some es)) → e ∈ es → isHidden e = false →
      fs (d ++ "/" ++ e) = some (FSNode.dir x) → ℓ < recurse →
      Reaches fs recurse (d ++ "/" ++ e) (ℓ + 1) D ℓD →
      Reaches fs recurse d ℓ D ℓD

theorem joinSlash_append (path : List String) (e : String) (h : path ≠ []) :
    joinSlash (path ++ [e]) = joinSlash path ++ "/" ++ e := by
  induction path with
  | nil => cases h rfl
  | cons x xs IH =>
    cases xs with
    | nil => rfl
    | cons y ys =>
      have IH2 := IH (by simp)
      show x ++ "/" ++ joinSlash ((y :: ys) ++ [e])
        = (x ++ "/" ++ joinSlash (y :: ys)) ++ "/" ++ e
      rw [IH2]
      simp [String.append_assoc]

theorem lsLoop_error_of_child (fs : FS) (recurse : Nat) (path : List String) (e : String)
    (x : Option (List String)) (hh : isHidden e = false)
    (hchild : fs (joinSlash path ++ "/" ++ e) = some (FSNode.dir x))
    (hguard : (path ++ [e]).length - 1 < recurse)
    (herr : ∀ acc2 : List String,
      lsAux fs recurse (joinSlash (path ++ [e])) acc2 (path ++ [e]) = Except.error ()) :
    ∀ (files acc : List String), e ∈ files →
      lsLoop fs recurse path files acc = Except.error () := by
  intro files
  induction files with
  | nil =>
    intro acc h
    simp at h
  | cons f rest IHf =>
    intro acc hmem
    rcases List.mem_cons.mp hmem with heq | hmem2
    · subst heq
      have hguard2 : path.length < recurse := by simpa using hguard
      simp [lsLoop, hh, hchild, hguard2, herr]
    · by_cases hhf : isHidden f = true
      · simp [lsLoop, hhf]
        exact IHf acc hmem2
      · cases hstat : fs (joinSlash path ++ "/" ++ f) with
        | none => simp [lsLoop, hhf, hstat]
        | some node =>
          cases node with
          | file =>
            simp [lsLoop, hhf, hstat]
            exact IHf _ hmem2
          | dir y =>
            by_cases hg : (path ++ [f]).length - 1 < recurse
            · have hg2 : path.length < recurse := by simpa using hg
              cases hrec : lsAux fs recurse (joinSlash (path ++ [f])) acc (path ++ [f]) with
              | error err =>
                cases err
                simp [lsLoop, hhf, hstat, hg2, hrec]
              | ok pr =>
                obtain ⟨r1, a2⟩ := pr
                simp [lsLoop, hhf, hstat, hg2, hrec]
                exact IHf a2 hmem2
            · have hg2 : ¬ (path.length < recurse) := by simpa using hg
              simp [lsLoop, hhf, hstat, hg2]
              exact IHf acc hmem2

theorem lsAux_error_complete (fs : FS) (recurse : Nat) {d D : String} {ℓ ℓD : Nat}
    (hreach : Reaches fs recurse d ℓ D ℓD) (hD : fs D = some (FSNode.dir none)) :
    ∀ (path acc : List String), path ≠ [] → joinSlash path = d → path.length = ℓ →
      lsAux fs recurse d acc path = Except.error () := by
  revert hD
  induction hreach with
  | refl d2 ℓ2 =>
    intro hD path acc hne hjp hlen
    have hlen0 : ¬ (path.length = 0) := by simpa [List.length_eq_zero] using hne
    simp [lsAux, hlen0, hD]
  | @head d2 D2 e ℓ2 ℓD2 es x hread he hh hchild hlt htail IH =>
    intro hD path acc hne hjp hlen
    have hlen0 : ¬ (path.length = 0) := by simpa [List.length_eq_zero] using hne
    have hchild2 : ∀ acc2 : List String,
        lsAux fs recurse (joinSlash (path ++ [e])) acc2 (path ++ [e]) = Except.error () := by
      intro acc2
      rw [joinSlash_append path e hne, hjp]
      exact IH hD (path ++ [e]) acc2 (by simp) (by rw [joinSlash_append path e hne, hjp])
        (by simp [hlen])
    have hloop := lsLoop_error_of_child fs recurse path e x hh
      (by rw [hjp]; exact hchild) (by simp [hlen]; omega) hchild2 es acc he
    simp [lsAux, hlen0, hread, hloop]

theorem lsLoop_error_sound (fs : FS) (recurse : Nat) (hco : Consistent fs)
    (path es : List String)
    (hstat : fs (joinSlash path) = some (FSNode.dir (some es))) :
    ∀ (files acc : List String), (∀ f ∈ files, f ∈ es) →
      lsLoop fs recurse path files acc = Except.error () →
      ∃ f : String, f ∈ es ∧ isHidden f = false ∧
        (∃ y : Option (List String),
          fs (joinSlash path ++ "/" ++ f) = some (FSNode.dir y)) ∧
        path.length < recurse ∧
        ∃ acc2 : List String,
          lsAux fs recurse (joinSlash (path ++ [f])) acc2 (path ++ [f]) =
            Except.error () := by
  intro files
  induction files with
  | nil =>
    intro acc hsub hl
    simp [lsLoop] at hl
  | cons f rest IHf =>
    intro acc hsub hl
    have hrest : ∀ g ∈ rest, g ∈ es := fun g hg => hsub g (List.mem_cons_of_mem f hg)
    by_cases hhf : isHidden f = true
    · simp [lsLoop, hhf] at hl
      exact IHf acc hrest hl
    · have hfes : f ∈ es := hsub f (List.mem_cons_self f rest)
      cases hstatf : fs (joinSlash path ++ "/" ++ f) with
      | none => exact absurd hstatf (hco (joinSlash path) es f hstat hfes)
      | some nodef =>
        cases nodef with
        | file =>
          simp [lsLoop, hhf, hstatf] at hl
          exact IHf _ hrest hl
        | dir y =>
          by_cases hg : (path ++ [f]).length - 1 < recurse
          · have hg2 : path.length < recurse := by simpa using hg
            cases hrec : lsAux fs recurse (joinSlash (path ++ [f])) acc (path ++ [f]) with
            | error err =>
              cases err
              exact ⟨f, hfes, by simpa using hhf, ⟨y, hstatf⟩, hg2, acc, hrec⟩
            | ok pr =>
              obtain ⟨r1, a2⟩ := pr
              simp [lsLoop, hhf, hstatf, hg2, hrec] at hl
              exact IHf a2 hrest hl
          · have hg2 : ¬ (path.length < recurse) := by simpa using hg
            simp [lsLoop, hhf, hstatf, hg2] at hl
            exact IHf acc hrest hl

theorem lsAux_error_sound (fs : FS) (recurse : Nat) (hco : Consistent fs) :
    ∀ (n : Nat) (path acc : List String), recurse + 1 - path.length ≤ n → path ≠ [] →
      lsAux fs recurse (joinSlash path) acc path = Except.error () →
      fs (joinSlash path) = none ∨
        ∃ (D : String) (ℓD : Nat),
          Reaches fs recurse (joinSlash path) path.length D ℓD ∧
            fs D = some (FSNode.dir none) := by
  intro n
  induction n using Nat.strong_induction_on with
  | _ n IHn =>
    intro path acc hn hne herr
    have hlen0 : ¬ (path.length = 0) := by simpa [List.length_eq_zero] using hne
    cases hstat : fs (joinSlash path) with
    | none => exact Or.inl rfl
    | some node =>
      cases node with
      | file => simp [lsAux, hlen0, hstat] at herr
      | dir o =>
        cases o with
        | none => exact Or.inr ⟨joinSlash path, path.length, Reaches.refl _ _, hstat⟩
        | some es =>
          have hloop : lsLoop fs recurse path es acc = Except.error () := by
            simp [lsAux, hlen0, hstat] at herr
            cases hl : lsLoop fs recurse path es acc with
            | error err =>
              cases err
              rfl
            | ok a2 =>
              rw [hl] at herr
              simp at herr
          obtain ⟨f, hfes, hfh, ⟨y, hstatf⟩, hlt, acc2, herr2⟩ :=
            lsLoop_error_sound fs recurse hco path es hstat es acc (fun _ h => h) hloop
          have hm : recurse + 1 - (path ++ [f]).length < n := by
            simp [List.length_append]
            omega
          rcases IHn _ hm (path ++ [f]) acc2 (le_refl _) (by simp) herr2 with hnone | hwit
          · rw [joinSlash_append path f hne, hstatf] at hnone
            cases hnone
          · obtain ⟨D, ℓD, hr, hD⟩ := hwit
            refine Or.inr ⟨D, ℓD, ?_, hD⟩
            have hr2 : Reaches fs recurse (joinSlash path ++ "/" ++ f) (path.length + 1) D ℓD := by
              rw [← joinSlash_append path f hne]
              simpa using hr
            exact Reaches.head hstat hfes hfh hstatf hlt hr2

/-- C7: ls propagates filesystem errors, exactly: a missing start path
errors for every filesystem and depth; whenever the traversal can reach,
within the depth bound, a directory whose listing fails, the run aborts with
`Except.error ()` — a value carrying no partial list — for every filesystem;
conversely, on a consistent filesystem an error arises only from a missing
start path or such a reachable failing read. The concrete `fsBroken` runs
show the abort discarding the already-collected `root/a.js` at depth 2, and
the same unreadable directory being harmless beyond the bound at depth 1. -/
theorem c7_error_propagation :
    (∀ (fs : FS) (dir : String) (r : Option Nat), fs dir = none →
      ls fs dir r = Except.error ()) ∧
    (∀ (fs : FS) (dir : String) (r : Option Nat) (D : String) (ℓ : Nat),
      Reaches fs (r.getD 1) dir 1 D ℓ → fs D = some (FSNode.dir none) →
      ls fs dir r = Except.error ()) ∧
    (∀ (fs : FS) (dir : String) (r : Option Nat), Consistent fs →
      ls fs dir r = Except.error () →
      fs dir = none ∨ ∃ (D : String) (ℓ : Nat),
        Reaches fs (r.getD 1) dir 1 D ℓ ∧ fs D = some (FSNode.dir none)) ∧
    ls fsBroken "root" (some 2) = Except.error () ∧
    ls fsBroken "root" (some 1) = Except.ok ["root/a.js"] := by
  refine ⟨fun fs dir r h => by simp [ls, lsAux, h], ?_, ?_, ?_, ?_⟩
  · intro fs dir r D ℓ hreach hD
    have h1 : lsAux fs (r.getD 1) dir [] [dir] = Except.error () :=
      lsAux_error_complete fs (r.getD 1) hreach hD [dir] [] (by simp) rfl rfl
    simp [ls, h1]
  · intro fs dir r hco herr
    have herr2 : lsAux fs (r.getD 1) dir [] [dir] = Except.error () := by
      cases hl : lsAux fs (r.getD 1) dir [] [dir] with
      | error err =>
        cases err
        rfl
      | ok pr =>
        simp [ls, hl] at herr
    have hres := lsAux_error_sound fs (r.getD 1) hco (r.getD 1 + 1) [dir] []
      (by simp only [List.length_cons, List.length_nil]; omega) (by simp) herr2
    simpa [joinSlash] using hres
  · simp [ls, lsAux, lsLoop, fsBroken, joinSlash, isHidden, replaceFirst, replaceFirstChars]
  · simp [ls, lsAux, lsLoop, fsBroken, joinSlash, isHidden, replaceFirst, replaceFirstChars]

theorem c7_error_propagation_witness :
    ls fsEmpty "nope" (some 1) = Except.error () ∧
    ls fsBroken "root" (some 2) = Except.error () :=
  ⟨c7_error_propagation.1 fsEmpty "nope" (some 1) rfl,
   c7_error_propagation.2.1 fsBroken "root" (some 2) ("root" ++ "/" ++ "sub") 2
     (Reaches.head
       (show fsBroken "root" = some (FSNode.dir (some ["a.js", "sub"])) by decide)
       (by decide)
       (by decide)
       (show fsBroken ("root" ++ "/" ++ "sub") = some (FSNode.dir none) by decide)
       (by decide)
       (Reaches.refl ("root" ++ "/" ++ "sub") 2))
     (by decide)⟩

/-! ### The trailing dot-marker behavior of the constructor -/

/-- C10 counterexample: for the input `..` the single split token, which is
also the last one, is `..`, yet construction puts it into `root`, leaves
`file` empty, and toString yields `../` rather than reproducing the marker
as the file name. -/
theorem c10_counterexample :
    (splitOnSlashes "..").getLast? = some ".." ∧
    (construct ".." none).file = "" ∧
    (construct ".." none).file ≠ ".." ∧
    (construct ".." none).toStr = "../" :=
  ⟨rfl, rfl, by decide, rfl⟩

/-- C10 as amended: for every input whose split yields at least two tokens
and whose last token is `.` or `..`, that token becomes the file name, is
untouched by resolution, and toString ends with it verbatim. -/
theorem c10_trailing_marker (s : String) (sep : Option String) (t : String)
    (hlen : 2 ≤ (splitOnSlashes s).length)
    (hlast : (splitOnSlashes s).getLast? = some t)
    (ht : t = "." ∨ t = "..") :
    (construct s sep).file = t ∧
    ∃ pre : String, (construct s sep).toStr = pre ++ t := by
  cases hparts : splitOnSlashes s with
  | nil =>
    rw [hparts] at hlen
    simp at hlen
  | cons a rest =>
    cases rest with
    | nil =>
      rw [hparts] at hlen
      simp at hlen
    | cons b rest2 =>
      rw [hparts, List.getLast?_cons_cons] at hlast
      have hfile : (construct s sep).file = t := by
        show (((splitOnSlashes s).tail.getLast?).getD "") = t
        rw [hparts]
        simp only [List.tail_cons]
        rw [hlast]
        rfl
      refine ⟨hfile, (construct s sep).root
        ++ String.intercalate (construct s sep).slash (construct s sep).path
        ++ (if 0 < (construct s sep).path.length then (construct s sep).slash else ""), ?_⟩
      unfold FilePath.toStr
      rw [hfile]

theorem c10_trailing_marker_witness :
    (construct "/a/b/.." none).file = ".." ∧
    ∃ pre : String, (construct "/a/b/.." none).toStr = pre ++ ".." :=
  c10_trailing_marker "/a/b/.." none ".." (by decide) (by decide) (Or.inr rfl)

end JsdocRun
